import Mathlib

/-!
Shallow embedding of the core logic of the `ai-web` backend services:

* `app/services/chatbot.py` — `_clean_response_text` (paragraph cleanup),
* `app/services/gemini.py` — `_parse_outline_lines` (outline extraction),
* `app/services/echo.py` — `get_flaky_echo_payload` (retry-simulation tracker).

Strings are modelled as `List Char` (Python `str` values), with `String`
wrappers for the public entry points.  Python `int` is modelled as `Int`.
The process-wide dictionary `_FLAKY_ATTEMPTS` is modelled as a total map
`String → Int`: `dict.setdefault(key, _FlakyState())` makes an absent key
observationally identical to a stored fresh counter with `attempts = 0`.
-/

namespace AiWeb

/-- The characters `str.isspace()` (and hence `str.strip()` with no
argument) treats as whitespace: `\t \n \v \f \r`, U+001C–U+001F, space,
U+0085, U+00A0, U+1680, U+2000–U+200A, U+2028, U+2029, U+202F, U+205F and
U+3000. -/
def pyWsChars : List Char :=
  ['\t', '\n', '\x0b', '\x0c', '\r', '\x1c', '\x1d', '\x1e', '\x1f', ' ',
   '\x85', '\xa0', ' ', ' ', ' ', ' ', ' ', ' ',
   ' ', ' ', ' ', ' ', ' ', ' ', ' ',
   ' ', ' ', ' ', '　']

/-- Python `str.strip()` whitespace membership. -/
def isPyWs (c : Char) : Bool :=
  c ∈ pyWsChars

/-- `s.lstrip()` restricted to a character predicate: drop the leading run. -/
def lstripP (p : Char → Bool) (l : List Char) : List Char :=
  l.dropWhile p

/-- Drop the trailing run of characters satisfying `p` (Python `rstrip`). -/
def rstripP (p : Char → Bool) (l : List Char) : List Char :=
  (l.reverse.dropWhile p).reverse

/-- Python `s.strip()` over a character predicate: both ends. -/
def stripP (p : Char → Bool) (l : List Char) : List Char :=
  lstripP p (rstripP p l)

/-- Python `s.strip()` (whitespace from both ends). -/
def stripWs (l : List Char) : List Char :=
  stripP isPyWs l

/-- Python `s.split('\n')`: split on every newline, keeping empty pieces
(`splitNl` never returns the empty list, so consing onto the head group via
`headI`/`tail` is faithful). -/
def splitNl : List Char → List (List Char)
  | [] => [[]]
  | c :: rest =>
    if c = '\n' then [] :: splitNl rest
    else (c :: (splitNl rest).headI) :: (splitNl rest).tail

/-- Python `'\n'.join(lines)`. -/
def joinNl : List (List Char) → List Char
  | [] => []
  | [g] => g
  | g :: gs => g ++ '\n' :: joinNl gs

/-- The replacement emitted for a run of `n` consecutive newlines by
`re.sub(r'\n{3,}', '\n\n', s)`: runs of three or more become exactly two,
shorter runs are left alone. -/
def emitRun (n : Nat) : List Char :=
  if 3 ≤ n then ['\n', '\n'] else List.replicate n '\n'

/-- Worker for newline collapsing; `n` counts the newlines seen in the
current run. -/
def collapseGo : Nat → List Char → List Char
  | n, [] => emitRun n
  | n, c :: rest =>
    if c = '\n' then collapseGo (n + 1) rest
    else emitRun n ++ c :: collapseGo 0 rest

/-- Python `re.sub(r'\n{3,}', '\n\n', s)`. -/
def collapseNl (l : List Char) : List Char :=
  collapseGo 0 l

/-- Step 3 of the cleanup: strip every line and rejoin with `'\n'`
(`'\n'.join(line.strip() for line in s.split('\n'))`). -/
def stripLines (l : List Char) : List Char :=
  joinNl ((splitNl l).map stripWs)

/-- ASCII upper-case letter (`[A-Z]`). -/
def isUpperAscii (c : Char) : Bool :=
  'A' ≤ c && c ≤ 'Z'

/-- ASCII letter (`[A-Za-z]`). -/
def isLetterAscii (c : Char) : Bool :=
  ('A' ≤ c && c ≤ 'Z') || ('a' ≤ c && c ≤ 'z')

/-- Python `re.sub(t + '(φ)', t + ' \1', s)` for a single trigger character
`t` and a character class `φ`: scan left to right and insert a space
between `t` and an immediately following character of class `φ`. -/
def fixAfter (t : Char) (φ : Char → Bool) : List Char → List Char
  | [] => []
  | [a] => [a]
  | a :: c :: rest =>
    if a = t && φ c then a :: ' ' :: c :: fixAfter t φ rest
    else a :: fixAfter t φ (c :: rest)

/-- Step 4a: `re.sub(r'\.([A-Z])', r'. \1', s)`. -/
def periodFix (l : List Char) : List Char :=
  fixAfter '.' isUpperAscii l

/-- Step 4b: `re.sub(r',([A-Za-z])', r', \1', s)`. -/
def commaFix (l : List Char) : List Char :=
  fixAfter ',' isLetterAscii l

/-- The markdown-artifact characters stripped at the very end
(`s.strip('*-_')`). -/
def cosmeticChars : List Char := ['*', '-', '_']

/-- Membership in the `strip('*-_')` character set. -/
def isCosmetic (c : Char) : Bool :=
  c ∈ cosmeticChars

/-- Python `s.strip('*-_')`. -/
def stripEnds (l : List Char) : List Char :=
  stripP isCosmetic l

/-- `_clean_response_text` from `app/services/chatbot.py` on character
lists: early-return on empty input, then strip, collapse newline runs,
strip each line, fix run-on punctuation after periods and commas, and
strip leftover cosmetic characters. -/
def cleanChars (l : List Char) : List Char :=
  if l = [] then []
  else stripEnds (commaFix (periodFix (stripLines (collapseNl (stripWs l)))))

/-- `_clean_response_text` on `String`. -/
def clean (s : String) : String :=
  String.mk (cleanChars s.data)

/-! ### Outline extraction (`_parse_outline_lines`, `app/services/gemini.py`) -/

/-- The exact character set of `cleaned.lstrip("-*â€¢0123456789. \t")` in the
source: note that the file stores the three characters `â`, `€`, `¢`
(a mojibake rendering of the bullet `•`), not the bullet itself. -/
def outlineStripChars : List Char :=
  ['-', '*', 'â', '€', '¢', '0', '1', '2', '3', '4', '5', '6', '7', '8', '9',
   '.', ' ', '\t']

/-- The single-character line boundaries of `str.splitlines()` other than
`\r` (which pairs with a following `\n`): `\n \v \f`, U+001C–U+001E,
U+0085, U+2028 and U+2029. -/
def lineBoundaryChars : List Char :=
  ['\n', '\x0b', '\x0c', '\x1c', '\x1d', '\x1e', '\x85', ' ', ' ']

/-- Python `str.splitlines()`: split on every line boundary, treating
`\r\n` as a single boundary (no trailing empty line; the empty string
gives no lines). -/
def splitLinesPy : List Char → List (List Char)
  | [] => []
  | '\r' :: '\n' :: rest => [] :: splitLinesPy rest
  | c :: rest =>
    if c = '\r' || c ∈ lineBoundaryChars then [] :: splitLinesPy rest
    else
      match splitLinesPy rest with
      | [] => [[c]]
      | g :: gs => (c :: g) :: gs

/-- The per-line loop of `_parse_outline_lines`: strip the line, skip it if
empty, strip the leading bullet/numbering run, skip if that empties it,
otherwise keep it. -/
def parseGo : List (List Char) → List (List Char)
  | [] => []
  | g :: gs =>
    let c := stripWs g
    if c = [] then parseGo gs
    else
      let c2 := lstripP (fun ch => ch ∈ outlineStripChars) c
      if c2 = [] then parseGo gs else c2 :: parseGo gs

/-- `_parse_outline_lines` on character lists. -/
def extractItemsL (l : List Char) : List (List Char) :=
  parseGo (splitLinesPy l)

/-- `_parse_outline_lines` on `String`. -/
def extractItems (s : String) : List String :=
  (extractItemsL s.data).map String.mk

/-- One line's total processing: strip whitespace, then the bullet run. -/
def procLine (g : List Char) : List Char :=
  lstripP (fun ch => ch ∈ outlineStripChars) (stripWs g)

/-! ### Retry-simulation tracker (`get_flaky_echo_payload`, `app/services/echo.py`) -/

/-- Decimal digits of `n`, most significant first, via fuelled division
(`fuel` bounds the recursion depth; any `fuel > n` is enough). -/
def natDigitsAux : Nat → Nat → List Char
  | 0, _ => []
  | fuel + 1, n =>
    if n < 10 then [Nat.digitChar n]
    else natDigitsAux fuel (n / 10) ++ [Nat.digitChar (n % 10)]

/-- Python `str(n)` for a non-negative integer. -/
def natDigits (n : Nat) : List Char :=
  natDigitsAux (n + 1) n

/-- Python `str(i)` for an `int` (decimal, `-` sign for negatives). -/
def intRepr (i : Int) : List Char :=
  if i < 0 then '-' :: natDigits i.natAbs else natDigits i.toNat

/-- The f-string key `f"{client_host}:{failures}"`. -/
def mkKey (clientHost : String) (failures : Int) : String :=
  String.mk (clientHost.data ++ ':' :: intRepr failures)

/-- The success payload `{"msg": message, "attempts": attempts}`. -/
structure EchoPayload where
  msg : String
  attempts : Int
deriving DecidableEq, Repr

/-- One call of `get_flaky_echo_payload message client_host failures` against
tracker state `σ`: returns the outcome (the raised `EchoServiceError`
message, or the payload) and the new tracker state. -/
def flakyStep (message clientHost : String) (failures : Int)
    (σ : String → Int) : Except String EchoPayload × (String → Int) :=
  let key := mkKey clientHost failures
  let attempts := σ key
  if attempts < failures then
    (Except.error "Simulated transient failure",
     fun k => if k = key then attempts + 1 else σ k)
  else
    (Except.ok ⟨message, attempts + 1⟩,
     fun k => if k = key then 0 else σ k)

/-- The tracker state after `n` successive calls with the same arguments. -/
def flakyIter (message clientHost : String) (failures : Int) :
    Nat → (String → Int) → (String → Int)
  | 0, σ => σ
  | n + 1, σ => (flakyStep message clientHost failures
      (flakyIter message clientHost failures n σ)).2

/-- States of `_FLAKY_ATTEMPTS` reachable from the empty dictionary by any
sequence of calls. -/
inductive FlakyReach : (String → Int) → Prop
  | init : FlakyReach (fun _ => 0)
  | step (m c : String) (f : Int) (σ : String → Int) :
      FlakyReach σ → FlakyReach (flakyStep m c f σ).2

/-! ### Auxiliary definitions used by the verification -/

/-- Numeric value of a decimal digit character. -/
def digitVal (c : Char) : Nat :=
  c.toNat - '0'.toNat

/-- Decimal value of a digit string (left fold). -/
def valOf (l : List Char) : Nat :=
  l.foldl (fun a c => a * 10 + digitVal c) 0

/-- Every adjacent pair of characters satisfies `p`. -/
def pairsOk (p : Char → Char → Bool) : List Char → Bool
  | [] => true
  | [_] => true
  | a :: b :: rest => p a b && pairsOk p (b :: rest)

/-- `p` holds between `a` and the head of `l` (vacuously if `l` is empty). -/
def pairHead (p : Char → Char → Bool) (a : Char) (l : List Char) : Bool :=
  match l with
  | [] => true
  | b :: _ => p a b

/-- Every three consecutive characters satisfy `p`. -/
def triplesOk (p : Char → Char → Char → Bool) : List Char → Bool
  | a :: b :: c :: rest => p a b c && triplesOk p (b :: c :: rest)
  | _ => true

/-- `p` holds on the triple formed by `a` and the first two of `l`. -/
def tripHead (p : Char → Char → Char → Bool) (a : Char) (l : List Char) : Bool :=
  match l with
  | b :: c :: _ => p a b c
  | _ => true

/-- Not three newlines in a row. -/
def pNl (a b c : Char) : Bool :=
  !(a = '\n' && b = '\n' && c = '\n')

/-- The string has no run of three or more consecutive newlines. -/
def noTriple (l : List Char) : Bool :=
  triplesOk pNl l

/-- No occurrence of trigger `t` immediately followed by a class-`φ`
character (the "nothing left for `fixAfter t φ` to do" predicate). -/
def pFix (t : Char) (φ : Char → Bool) (a b : Char) : Bool :=
  !(a = t && φ b)

/-- No whitespace character adjacent to a newline on its non-newline side:
together with stripped string ends this says every line is stripped. -/
def adjOk (a b : Char) : Bool :=
  !(a = '\n' && isPyWs b && !(b = '\n')) && !(isPyWs a && !(a = '\n') && b = '\n')

/-- The first character, if any, does not satisfy `p`. -/
def headNot (p : Char → Bool) : List Char → Bool
  | [] => true
  | c :: _ => !p c

/-- The last character, if any, does not satisfy `p`. -/
def lastNot (p : Char → Bool) (l : List Char) : Bool :=
  headNot p l.reverse

/-! ### Lemmas: decimal representation and key injectivity -/

theorem digitChar_inj : ∀ a : Nat, a < 10 → ∀ b : Nat, b < 10 →
    Nat.digitChar a = Nat.digitChar b → a = b := by decide

theorem digitChar_ne_colon : ∀ a : Nat, a < 10 → Nat.digitChar a ≠ ':' := by decide

theorem digitChar_ne_dash : ∀ a : Nat, a < 10 → Nat.digitChar a ≠ '-' := by decide

theorem digitVal_digitChar : ∀ a : Nat, a < 10 → digitVal (Nat.digitChar a) = a := by
  decide

theorem natDigitsAux_fuel (f1 : Nat) : ∀ f2 n : Nat, n < f1 → n < f2 →
    natDigitsAux f1 n = natDigitsAux f2 n := by
  induction f1 with
  | zero => intro f2 n h1 _; omega
  | succ g ih =>
    intro f2 n h1 h2
    match f2, h2 with
    | g2 + 1, _ =>
      show natDigitsAux (g + 1) n = natDigitsAux (g2 + 1) n
      unfold natDigitsAux
      by_cases hn : n < 10
      · simp [hn]
      · have hd : n / 10 < n := Nat.div_lt_self (by omega) (by omega)
        simp only [hn, if_false]
        rw [ih g2 (n / 10) (by omega) (by omega)]

theorem natDigits_eq (n : Nat) : natDigits n =
    if n < 10 then [Nat.digitChar n]
    else natDigits (n / 10) ++ [Nat.digitChar (n % 10)] := by
  have h1 : natDigits n =
      if n < 10 then [Nat.digitChar n]
      else natDigitsAux n (n / 10) ++ [Nat.digitChar (n % 10)] := rfl
  rw [h1]
  by_cases hn : n < 10
  · simp [hn]
  · have hd : n / 10 < n := Nat.div_lt_self (by omega) (by omega)
    simp only [hn, if_false]
    rw [natDigitsAux_fuel n (n / 10 + 1) (n / 10) hd (by omega)]
    rfl

theorem valOf_append_digit (l : List Char) (c : Char) :
    valOf (l ++ [c]) = valOf l * 10 + digitVal c := by
  simp [valOf, List.foldl_append]

theorem valOf_natDigits (n : Nat) : valOf (natDigits n) = n := by
  induction n using Nat.strong_induction_on with
  | _ n ih =>
    rw [natDigits_eq]
    by_cases hn : n < 10
    · simp [hn, valOf, digitVal_digitChar n hn]
    · have hd : n / 10 < n := Nat.div_lt_self (by omega) (by omega)
      simp only [hn, if_false]
      rw [valOf_append_digit, ih (n / 10) hd,
        digitVal_digitChar (n % 10) (Nat.mod_lt n (by omega))]
      omega

theorem natDigits_inj {a b : Nat} (h : natDigits a = natDigits b) : a = b := by
  have := valOf_natDigits a
  rw [h, valOf_natDigits] at this
  omega

theorem natDigits_chars (n : Nat) : ∀ c ∈ natDigits n, c ≠ ':' ∧ c ≠ '-' := by
  induction n using Nat.strong_induction_on with
  | _ n ih =>
    rw [natDigits_eq]
    by_cases hn : n < 10
    · simp only [hn, if_true, List.mem_singleton]
      rintro c rfl
      exact ⟨digitChar_ne_colon n hn, digitChar_ne_dash n hn⟩
    · have hd : n / 10 < n := Nat.div_lt_self (by omega) (by omega)
      simp only [hn, if_false, List.mem_append, List.mem_singleton]
      rintro c (hc | rfl)
      · exact ih (n / 10) hd c hc
      · have hm : n % 10 < 10 := Nat.mod_lt n (by omega)
        exact ⟨digitChar_ne_colon _ hm, digitChar_ne_dash _ hm⟩

theorem intRepr_no_colon (i : Int) : ':' ∉ intRepr i := by
  unfold intRepr
  split
  · intro h
    rcases List.mem_cons.mp h with h | h
    · exact absurd h.symm (by decide)
    · exact (natDigits_chars _ _ h).1 rfl
  · intro h
    exact (natDigits_chars _ _ h).1 rfl

theorem intRepr_inj {i j : Int} (h : intRepr i = intRepr j) : i = j := by
  unfold intRepr at h
  split at h <;> split at h
  · injection h with _ h2
    have := natDigits_inj h2
    omega
  · exfalso
    have hm : '-' ∈ natDigits j.toNat := by rw [← h]; exact List.mem_cons_self _ _
    exact (natDigits_chars _ _ hm).2 rfl
  · exfalso
    have hm : '-' ∈ natDigits i.toNat := by rw [h]; exact List.mem_cons_self _ _
    exact (natDigits_chars _ _ hm).2 rfl
  · have := natDigits_inj h
    omega

theorem append_colon_inj : ∀ a1 a2 b1 b2 : List Char, ':' ∉ b1 → ':' ∉ b2 →
    a1 ++ ':' :: b1 = a2 ++ ':' :: b2 → a1 = a2 ∧ b1 = b2 := by
  intro a1
  induction a1 with
  | nil =>
    intro a2 b1 b2 h1 h2 h
    cases a2 with
    | nil =>
      simp only [List.nil_append] at h
      exact ⟨rfl, by injection h⟩
    | cons y a2t =>
      exfalso
      simp only [List.nil_append, List.cons_append] at h
      injection h with hy ht
      apply h1
      rw [ht]
      exact List.mem_append_right _ (List.mem_cons_self _ _)
  | cons x a1t ih =>
    intro a2 b1 b2 h1 h2 h
    cases a2 with
    | nil =>
      exfalso
      simp only [List.nil_append, List.cons_append] at h
      injection h with hy ht
      apply h2
      rw [← ht]
      exact List.mem_append_right _ (List.mem_cons_self _ _)
    | cons y a2t =>
      simp only [List.cons_append] at h
      injection h with hy ht
      obtain ⟨he, hb⟩ := ih a2t b1 b2 h1 h2 ht
      exact ⟨by rw [hy, he], hb⟩

theorem mkKey_inj {c1 c2 : String} {f1 f2 : Int}
    (h : mkKey c1 f1 = mkKey c2 f2) : c1 = c2 ∧ f1 = f2 := by
  unfold mkKey at h
  injection h with h
  obtain ⟨hc, hf⟩ := append_colon_inj c1.data c2.data (intRepr f1) (intRepr f2)
    (intRepr_no_colon f1) (intRepr_no_colon f2) h
  refine ⟨?_, intRepr_inj hf⟩
  exact congrArg String.mk hc

/-! ### Lemmas: the flaky tracker -/

theorem flakyStep_fail {m c : String} {f : Int} {σ : String → Int}
    (h : σ (mkKey c f) < f) :
    flakyStep m c f σ =
      (Except.error "Simulated transient failure",
       fun k => if k = mkKey c f then σ (mkKey c f) + 1 else σ k) := by
  simp [flakyStep, h]

theorem flakyStep_ok {m c : String} {f : Int} {σ : String → Int}
    (h : ¬σ (mkKey c f) < f) :
    flakyStep m c f σ =
      (Except.ok ⟨m, σ (mkKey c f) + 1⟩,
       fun k => if k = mkKey c f then 0 else σ k) := by
  simp [flakyStep, h]

theorem flakyIter_key (m c : String) (F : Nat) (σ : String → Int)
    (h0 : σ (mkKey c (F : Int)) = 0) :
    ∀ n : Nat, n ≤ F → flakyIter m c (F : Int) n σ (mkKey c (F : Int)) = n := by
  intro n
  induction n with
  | zero => intro _; exact h0
  | succ k ih =>
    intro hk
    have hkF : k ≤ F := Nat.le_of_succ_le hk
    have hv := ih hkF
    have hlt : (flakyIter m c (F : Int) k σ) (mkKey c (F : Int)) < (F : Int) := by
      rw [hv]; exact_mod_cast Nat.lt_of_succ_le hk
    show (flakyStep m c (F : Int) (flakyIter m c (F : Int) k σ)).2 _ = _
    rw [flakyStep_fail hlt]
    simp [hv]

/-- C1: for every identity `id`, message `m` and non-negative threshold `F`,
starting from a fresh counter for the key `(id, F)`, the first `F` calls each
raise the transient failure, the `(F+1)`-th call succeeds with payload
`{msg := m, attempts := F + 1}`, the counter is then back at zero, and (for
`F > 0`) the next call fails again, restarting the cycle. -/
theorem flaky_cycle (id m : String) (F : Nat) (σ : String → Int)
    (h0 : σ (mkKey id (F : Int)) = 0) :
    (∀ n : Nat, n < F →
      (flakyStep m id (F : Int) (flakyIter m id (F : Int) n σ)).1 =
        Except.error "Simulated transient failure") ∧
    (flakyStep m id (F : Int) (flakyIter m id (F : Int) F σ)).1 =
      Except.ok ⟨m, (F : Int) + 1⟩ ∧
    flakyIter m id (F : Int) (F + 1) σ (mkKey id (F : Int)) = 0 ∧
    (0 < F →
      (flakyStep m id (F : Int) (flakyIter m id (F : Int) (F + 1) σ)).1 =
        Except.error "Simulated transient failure") := by
  have hkey := flakyIter_key m id F σ h0
  have hF : flakyIter m id (F : Int) F σ (mkKey id (F : Int)) = F := hkey F le_rfl
  have hnot : ¬ flakyIter m id (F : Int) F σ (mkKey id (F : Int)) < (F : Int) := by
    rw [hF]; omega
  have hsucc : flakyIter m id (F : Int) (F + 1) σ (mkKey id (F : Int)) = 0 := by
    show (flakyStep m id (F : Int) (flakyIter m id (F : Int) F σ)).2 _ = 0
    rw [flakyStep_ok hnot]
    simp
  refine ⟨?_, ?_, hsucc, ?_⟩
  · intro n hn
    have hlt : flakyIter m id (F : Int) n σ (mkKey id (F : Int)) < (F : Int) := by
      rw [hkey n (Nat.le_of_lt hn)]; exact_mod_cast hn
    rw [flakyStep_fail hlt]
  · rw [flakyStep_ok hnot, hF]
  · intro hFpos
    have hlt : flakyIter m id (F : Int) (F + 1) σ (mkKey id (F : Int)) < (F : Int) := by
      rw [hsucc]; exact_mod_cast hFpos
    rw [flakyStep_fail hlt]

theorem flaky_cycle_witness :
    ((fun _ : String => (0 : Int)) (mkKey "a" ((2 : Nat) : Int)) = 0) ∧
    (flakyStep "hi" "a" ((2 : Nat) : Int)
      (flakyIter "hi" "a" ((2 : Nat) : Int) 1 (fun _ => 0))).1 =
        Except.error "Simulated transient failure" ∧
    (flakyStep "hi" "a" ((2 : Nat) : Int)
      (flakyIter "hi" "a" ((2 : Nat) : Int) 2 (fun _ => 0))).1 =
        Except.ok ⟨"hi", ((2 : Nat) : Int) + 1⟩ ∧
    flakyIter "hi" "a" ((2 : Nat) : Int) 3 (fun _ => 0) (mkKey "a" ((2 : Nat) : Int)) = 0 :=
  ⟨rfl,
   (flaky_cycle "a" "hi" 2 (fun _ => 0) rfl).1 1 (by omega),
   (flaky_cycle "a" "hi" 2 (fun _ => 0) rfl).2.1,
   (flaky_cycle "a" "hi" 2 (fun _ => 0) rfl).2.2.1⟩

/-- C5: in every reachable tracker state every stored counter is a
non-negative integer and, for a key with non-negative threshold `F`, never
exceeds `F`; moreover a failing call increments exactly its own counter by
one and the succeeding call resets it to exactly zero. -/
theorem flaky_counter_invariant :
    (∀ σ : String → Int, FlakyReach σ →
      (∀ k : String, 0 ≤ σ k) ∧
      (∀ (id : String) (F : Nat), σ (mkKey id (F : Int)) ≤ (F : Int))) ∧
    (∀ (m c : String) (f : Int) (σ : String → Int),
      σ (mkKey c f) < f →
      (flakyStep m c f σ).2 (mkKey c f) = σ (mkKey c f) + 1) ∧
    (∀ (m c : String) (f : Int) (σ : String → Int),
      ¬σ (mkKey c f) < f → (flakyStep m c f σ).2 (mkKey c f) = 0) := by
  refine ⟨?_, ?_, ?_⟩
  · intro σ h
    induction h with
    | init => exact ⟨fun _ => le_rfl, fun _ F => Int.ofNat_nonneg F⟩
    | step m c f σ hr ih =>
      by_cases hlt : σ (mkKey c f) < f
      · rw [flakyStep_fail hlt]
        refine ⟨fun k => ?_, fun id F => ?_⟩
        · dsimp only
          split
          · have := ih.1 (mkKey c f); omega
          · exact ih.1 k
        · dsimp only
          split
          · rename_i heq
            obtain ⟨hc, hf⟩ := mkKey_inj heq
            rw [hf]
            omega
          · exact ih.2 id F
      · rw [flakyStep_ok hlt]
        refine ⟨fun k => ?_, fun id F => ?_⟩
        · dsimp only
          split
          · omega
          · exact ih.1 k
        · dsimp only
          split
          · exact Int.ofNat_nonneg F
          · exact ih.2 id F
  · intro m c f σ hlt
    rw [flakyStep_fail hlt]
    simp
  · intro m c f σ hge
    rw [flakyStep_ok hge]
    simp

theorem flaky_counter_invariant_witness :
    (0 : Int) ≤ (fun _ : String => (0 : Int)) "k" ∧
    (fun _ : String => (0 : Int)) (mkKey "a" ((3 : Nat) : Int)) ≤ ((3 : Nat) : Int) ∧
    (flakyStep "m" "a" 2 (fun _ => 0)).2 (mkKey "a" 2) =
      (fun _ : String => (0 : Int)) (mkKey "a" 2) + 1 :=
  ⟨(flaky_counter_invariant.1 _ FlakyReach.init).1 "k",
   (flaky_counter_invariant.1 _ FlakyReach.init).2 "a" 3,
   flaky_counter_invariant.2.1 "m" "a" 2 (fun _ => 0) (by norm_num)⟩

/-- C6: a call raises exactly the `Simulated transient failure` error iff the
stored counter is below the threshold; on that branch no payload is produced
and the only state change is the increment of that key's own counter. -/
theorem flaky_failure_iff (m c : String) (f : Int) (σ : String → Int) :
    ((flakyStep m c f σ).1 = Except.error "Simulated transient failure" ↔
      σ (mkKey c f) < f) ∧
    (σ (mkKey c f) < f → ∀ p : EchoPayload, (flakyStep m c f σ).1 ≠ Except.ok p) ∧
    (σ (mkKey c f) < f →
      (flakyStep m c f σ).2 (mkKey c f) = σ (mkKey c f) + 1 ∧
      ∀ k : String, k ≠ mkKey c f → (flakyStep m c f σ).2 k = σ k) := by
  by_cases hlt : σ (mkKey c f) < f
  · rw [flakyStep_fail hlt]
    refine ⟨by simpa using hlt, fun _ p => by simp, fun _ => ⟨by simp, fun k hk => ?_⟩⟩
    simp [hk]
  · rw [flakyStep_ok hlt]
    exact ⟨by simpa using hlt, fun h => absurd h hlt, fun h => absurd h hlt⟩

theorem flaky_failure_iff_witness :
    ((flakyStep "m" "a" 2 (fun _ => 0)).1 =
      Except.error "Simulated transient failure" ↔
        (fun _ : String => (0 : Int)) (mkKey "a" 2) < 2) ∧
    (flakyStep "m" "a" 2 (fun _ => 0)).2 (mkKey "a" 2) =
      (fun _ : String => (0 : Int)) (mkKey "a" 2) + 1 :=
  ⟨(flaky_failure_iff "m" "a" 2 (fun _ => 0)).1,
   ((flaky_failure_iff "m" "a" 2 (fun _ => 0)).2.2 (by norm_num)).1⟩

/-- C7: the key `identity ++ ":" ++ str(threshold)` is injective, so distinct
(identity, threshold) pairs own distinct counters, and a call never touches
any counter other than its own; in particular two thresholds for the same
identity are independent. -/
theorem flaky_key_independence :
    (∀ (c1 : String) (f1 : Int) (c2 : String) (f2 : Int),
      mkKey c1 f1 = mkKey c2 f2 → c1 = c2 ∧ f1 = f2) ∧
    (∀ (m c : String) (f : Int) (σ : String → Int) (k : String),
      k ≠ mkKey c f → (flakyStep m c f σ).2 k = σ k) ∧
    (∀ (m c : String) (f1 f2 : Int) (σ : String → Int),
      f1 ≠ f2 → (flakyStep m c f1 σ).2 (mkKey c f2) = σ (mkKey c f2)) := by
  have frame : ∀ (m c : String) (f : Int) (σ : String → Int) (k : String),
      k ≠ mkKey c f → (flakyStep m c f σ).2 k = σ k := by
    intro m c f σ k hk
    by_cases hlt : σ (mkKey c f) < f
    · rw [flakyStep_fail hlt]; simp [hk]
    · rw [flakyStep_ok hlt]; simp [hk]
  refine ⟨fun c1 f1 c2 f2 h => mkKey_inj h, frame, ?_⟩
  intro m c f1 f2 σ hne
  exact frame m c f1 σ (mkKey c f2) (fun h => hne ((mkKey_inj h).2).symm)

theorem flaky_key_independence_witness :
    ("a" : String) = "a" ∧ (1 : Int) = 1 ∧
    (flakyStep "m" "a" 1 (fun _ => 0)).2 (mkKey "a" 2) =
      (fun _ : String => (0 : Int)) (mkKey "a" 2) :=
  ⟨(flaky_key_independence.1 "a" 1 "a" 1 rfl).1,
   (flaky_key_independence.1 "a" 1 "a" 1 rfl).2,
   flaky_key_independence.2.2 "m" "a" 1 2 (fun _ => 0) (by norm_num)⟩

/-- C10: a negative threshold is not validated: from a fresh counter the call
immediately succeeds with payload `{msg := m, attempts := 1}` and resets the
counter, exactly the `failure_threshold = 0` behaviour. -/
theorem flaky_negative_threshold (m c : String) (f : Int) (hf : f < 0)
    (σ : String → Int) (h0 : σ (mkKey c f) = 0) :
    (flakyStep m c f σ).1 = Except.ok ⟨m, 1⟩ ∧
    (flakyStep m c f σ).2 (mkKey c f) = 0 := by
  have hge : ¬σ (mkKey c f) < f := by omega
  rw [flakyStep_ok hge]
  exact ⟨by simp [h0], by simp⟩

/-! ### Lemmas: outline extraction -/

theorem parseGo_eq (gs : List (List Char)) :
    parseGo gs = (gs.map procLine).filter (fun g => !g.isEmpty) := by
  induction gs with
  | nil => rfl
  | cons g gs ih =>
    show (if stripWs g = [] then _ else _) = _
    by_cases hg : stripWs g = []
    · have hp : procLine g = [] := by
        unfold procLine
        rw [hg]
        rfl
      simp [hg, hp, ih]
    · simp only [hg, if_neg hg, List.map_cons, List.filter_cons]
      by_cases h2 : lstripP (fun ch => ch ∈ outlineStripChars) (stripWs g) = []
      · have hp : procLine g = [] := h2
        simp [h2, hp, ih]
      · have hp : procLine g = lstripP (fun ch => ch ∈ outlineStripChars) (stripWs g) :=
          rfl
        rw [hp]
        simp only [h2, if_neg h2]
        have : (!(lstripP (fun ch => ch ∈ outlineStripChars) (stripWs g)).isEmpty) =
            true := by
          simp [List.isEmpty_iff, h2]
        rw [this]
        simp [ih]

theorem procLine_nil : procLine [] = [] := rfl

theorem filter_map_length_le (gs : List (List Char)) :
    ((gs.map procLine).filter (fun g => !g.isEmpty)).length ≤
      (gs.filter (fun g => !g.isEmpty)).length := by
  induction gs with
  | nil => exact Nat.le_refl _
  | cons g gs ih =>
    simp only [List.map_cons, List.filter_cons]
    by_cases hp : procLine g = []
    · rw [if_neg (by simp [List.isEmpty_iff, hp])]
      by_cases hg : g = []
      · rw [if_neg (by simp [List.isEmpty_iff, hg])]
        exact ih
      · rw [if_pos (by simp [List.isEmpty_iff, hg])]
        exact Nat.le_trans ih (Nat.le_succ _)
    · have hg : g ≠ [] := fun h => hp (by rw [h]; exact procLine_nil)
      rw [if_pos (by simp [List.isEmpty_iff, hp]),
        if_pos (by simp [List.isEmpty_iff, hg])]
      simp only [List.length_cons]
      omega

/-- C8: the outline extraction is a per-line map followed by a filter, hence
it preserves line order (it is a sublist of the per-line images) and its
length is at most the number of non-empty input lines; empty or
whitespace-only input yields the empty list. -/
theorem outline_order_and_bounds :
    (∀ l : List Char, extractItemsL l =
      ((splitLinesPy l).map procLine).filter (fun g => !g.isEmpty)) ∧
    (∀ l : List Char, (extractItemsL l).Sublist ((splitLinesPy l).map procLine)) ∧
    (∀ l : List Char, (extractItemsL l).length ≤
      ((splitLinesPy l).filter (fun g => !g.isEmpty)).length) ∧
    extractItems "" = [] ∧ extractItems "   \n\t" = [] := by
  refine ⟨fun l => parseGo_eq _, fun l => ?_, fun l => ?_, by decide, by decide⟩
  · rw [show extractItemsL l = parseGo (splitLinesPy l) from rfl, parseGo_eq]
    exact List.filter_sublist _
  · rw [show extractItemsL l = parseGo (splitLinesPy l) from rfl, parseGo_eq]
    exact filter_map_length_le _

/-- C3: the numbering/bullet strip set in the source is the literal
characters `-*â€¢0123456789. \t` — the three characters `â`, `€`, `¢` are a
mojibake rendering of the intended bullet `•` (U+2022), so `-`, `*` and
numeric prefixes are stripped but a real `• ` prefix is not. -/
theorem outline_bullet_mojibake :
    extractItems "1. First\n- Second\n\n* Third" = ["First", "Second", "Third"] ∧
    extractItems "• Third" = ["• Third"] ∧
    '•' ∉ outlineStripChars ∧
    'â' ∈ outlineStripChars ∧ '€' ∈ outlineStripChars ∧ '¢' ∈ outlineStripChars := by
  refine ⟨by decide, by decide, by decide, by decide, by decide, by decide⟩

theorem flaky_negative_threshold_witness :
    ((-1 : Int) < 0) ∧
    (flakyStep "hi" "a" (-1) (fun _ => 0)).1 = Except.ok ⟨"hi", 1⟩ ∧
    (flakyStep "hi" "a" (-1) (fun _ => 0)).2 (mkKey "a" (-1)) = 0 :=
  ⟨by norm_num,
   (flaky_negative_threshold "hi" "a" (-1) (by norm_num) (fun _ => 0) rfl).1,
   (flaky_negative_threshold "hi" "a" (-1) (by norm_num) (fun _ => 0) rfl).2⟩

/-! ### Lemmas: adjacency predicates -/

theorem pairsOk_cons (p : Char → Char → Bool) (a : Char) (l : List Char) :
    pairsOk p (a :: l) = (pairHead p a l && pairsOk p l) := by
  cases l <;> simp [pairsOk, pairHead]

theorem pairsOk_tail {p : Char → Char → Bool} {a : Char} {l : List Char}
    (h : pairsOk p (a :: l) = true) : pairsOk p l = true := by
  rw [pairsOk_cons] at h
  exact (Bool.and_eq_true_iff.mp h).2

theorem pairHead_congr (p : Char → Char → Bool) (a : Char) {l1 l2 : List Char}
    (h : l1.head? = l2.head?) : pairHead p a l1 = pairHead p a l2 := by
  cases l1 <;> cases l2 <;> simp_all [pairHead]

theorem pairHead_of_all {p : Char → Char → Bool} {a : Char}
    (h : ∀ b, p a b = true) (l : List Char) : pairHead p a l = true := by
  cases l <;> simp [pairHead, h]

theorem triplesOk_cons (p : Char → Char → Char → Bool) (a : Char) (l : List Char) :
    triplesOk p (a :: l) = (tripHead p a l && triplesOk p l) := by
  match l with
  | [] => simp [triplesOk, tripHead]
  | [b] => simp [triplesOk, tripHead]
  | b :: c :: r => simp [triplesOk, tripHead]

theorem triplesOk_tail {p : Char → Char → Char → Bool} {a : Char} {l : List Char}
    (h : triplesOk p (a :: l) = true) : triplesOk p l = true := by
  rw [triplesOk_cons] at h
  exact (Bool.and_eq_true_iff.mp h).2

theorem triplesOk_append_right {p : Char → Char → Char → Bool} {y : List Char} :
    ∀ x : List Char, triplesOk p (x ++ y) = true → triplesOk p y = true := by
  intro x
  induction x with
  | nil => exact fun h => h
  | cons a x ih => exact fun h => ih (triplesOk_tail h)

theorem tripHead_nonNl {a : Char} (h : ¬a = '\n') (l : List Char) :
    tripHead pNl a l = true := by
  match l with
  | [] => rfl
  | [b] => rfl
  | b :: c :: r => simp [tripHead, pNl, h]

theorem tripHead_cons_nonNl {b : Char} (a : Char) (h : ¬b = '\n') (l : List Char) :
    tripHead pNl a (b :: l) = true := by
  match l with
  | [] => rfl
  | c :: r => simp [tripHead, pNl, h]

theorem tripHead_cons_cons (p : Char → Char → Char → Bool) (a b c : Char)
    (l : List Char) : tripHead p a (b :: c :: l) = p a b c := rfl

theorem headNot_congr (p : Char → Bool) {l1 l2 : List Char}
    (h : l1.head? = l2.head?) : headNot p l1 = headNot p l2 := by
  cases l1 <;> cases l2 <;> simp_all [headNot]

theorem lastNot_congr (p : Char → Bool) {l1 l2 : List Char}
    (h : l1.getLast? = l2.getLast?) : lastNot p l1 = lastNot p l2 := by
  unfold lastNot
  refine headNot_congr p ?_
  rw [List.head?_reverse, List.head?_reverse, h]

theorem headNot_of_all {p : Char → Bool} {l : List Char}
    (h : ∀ c ∈ l, p c = false) : headNot p l = true := by
  cases l with
  | nil => rfl
  | cons c rest => simp [headNot, h c (List.mem_cons_self c rest)]

theorem lastNot_of_all {p : Char → Bool} {l : List Char}
    (h : ∀ c ∈ l, p c = false) : lastNot p l = true := by
  unfold lastNot
  exact headNot_of_all fun c hc => h c (List.mem_reverse.mp hc)

theorem headNot_append {p : Char → Bool} {x : List Char} (y : List Char)
    (hx : x ≠ []) : headNot p (x ++ y) = headNot p x := by
  cases x with
  | nil => exact absurd rfl hx
  | cons c rest => simp [headNot]

theorem lastNot_append {p : Char → Bool} (x : List Char) {y : List Char}
    (hy : y ≠ []) : lastNot p (x ++ y) = lastNot p y := by
  unfold lastNot
  rw [List.reverse_append]
  exact headNot_append _ (by simpa using hy)

theorem lastNot_cons {p : Char → Bool} (a : Char) {l : List Char} (hl : l ≠ []) :
    lastNot p (a :: l) = lastNot p l := by
  have : a :: l = [a] ++ l := rfl
  rw [this, lastNot_append _ hl]

theorem lastNot_singleton (p : Char → Bool) (a : Char) :
    lastNot p [a] = !p a := rfl

/-! ### Lemmas: stripping -/

theorem lstripP_id {p : Char → Bool} {l : List Char} (h : headNot p l = true) :
    lstripP p l = l := by
  cases l with
  | nil => rfl
  | cons c rest =>
    have hc : p c = false := by simpa [headNot] using h
    simp [lstripP, List.dropWhile_cons, hc]

theorem rstripP_id {p : Char → Bool} {l : List Char} (h : lastNot p l = true) :
    rstripP p l = l := by
  unfold rstripP
  have : l.reverse.dropWhile p = l.reverse := lstripP_id h
  rw [this, List.reverse_reverse]

theorem stripP_id {p : Char → Bool} {l : List Char} (h1 : headNot p l = true)
    (h2 : lastNot p l = true) : stripP p l = l := by
  unfold stripP
  rw [rstripP_id h2, lstripP_id h1]

theorem stripWs_id {l : List Char} (h1 : headNot isPyWs l = true)
    (h2 : lastNot isPyWs l = true) : stripWs l = l :=
  stripP_id h1 h2

theorem stripWs_nil : stripWs [] = [] := rfl

theorem stripWs_all_ws {l : List Char} (h : ∀ c ∈ l, isPyWs c = true) :
    stripWs l = [] := by
  unfold stripWs stripP rstripP
  have hd : l.reverse.dropWhile isPyWs = [] := by
    rw [List.dropWhile_eq_nil_iff]
    exact fun c hc => h c (List.mem_reverse.mp hc)
  rw [hd]
  rfl

theorem stripEnds_id {l : List Char} (h1 : headNot isCosmetic l = true)
    (h2 : lastNot isCosmetic l = true) : stripEnds l = l :=
  stripP_id h1 h2

/-! ### Lemmas: splitting on newlines and rejoining -/

theorem splitNl_nil : splitNl [] = [[]] := rfl

theorem splitNl_cons_nl (rest : List Char) :
    splitNl ('\n' :: rest) = [] :: splitNl rest := by
  simp [splitNl]

theorem splitNl_cons {c : Char} (hc : ¬c = '\n') (rest : List Char) :
    splitNl (c :: rest) =
      (c :: (splitNl rest).headI) :: (splitNl rest).tail := by
  simp [splitNl, hc]

theorem splitNl_ne_nil (l : List Char) : splitNl l ≠ [] := by
  cases l with
  | nil => simp [splitNl]
  | cons c rest =>
    by_cases hc : c = '\n'
    · subst hc
      rw [splitNl_cons_nl]
      simp
    · rw [splitNl_cons hc]
      simp

theorem cons_headI_tail {L : List (List Char)} (h : L ≠ []) :
    L.headI :: L.tail = L := by
  cases L with
  | nil => exact absurd rfl h
  | cons g gs => rfl

theorem mem_headI {L : List (List Char)} (h : L ≠ []) : L.headI ∈ L := by
  cases L with
  | nil => exact absurd rfl h
  | cons g gs => exact List.mem_cons_self _ _

theorem joinNl_cons_cons (a b : List Char) (t : List (List Char)) :
    joinNl (a :: b :: t) = a ++ '\n' :: joinNl (b :: t) := rfl

theorem joinNl_splitNl (l : List Char) : joinNl (splitNl l) = l := by
  induction l with
  | nil => rfl
  | cons c rest ih =>
    by_cases hc : c = '\n'
    · subst hc
      rw [splitNl_cons_nl]
      obtain ⟨g, gs, hgs⟩ : ∃ g gs, splitNl rest = g :: gs := by
        cases h : splitNl rest with
        | nil => exact absurd h (splitNl_ne_nil rest)
        | cons g gs => exact ⟨g, gs, rfl⟩
      rw [hgs]
      rw [hgs] at ih
      rw [joinNl_cons_cons]
      simp [ih]
    · rw [splitNl_cons hc]
      obtain ⟨g, gs, hgs⟩ : ∃ g gs, splitNl rest = g :: gs := by
        cases h : splitNl rest with
        | nil => exact absurd h (splitNl_ne_nil rest)
        | cons g gs => exact ⟨g, gs, rfl⟩
      rw [hgs] at ih ⊢
      cases gs with
      | nil => simpa [joinNl] using congrArg (c :: ·) ih
      | cons g2 t =>
        rw [show (g :: g2 :: t).headI = g from rfl,
          show (g :: g2 :: t).tail = g2 :: t from rfl]
        rw [joinNl_cons_cons]
        rw [joinNl_cons_cons] at ih
        rw [← ih]
        rfl

theorem splitNl_chars (l : List Char) :
    ∀ g ∈ splitNl l, ∀ c ∈ g, c ∈ l := by
  induction l with
  | nil =>
    intro g hg c hc
    rw [splitNl_nil] at hg
    simp at hg
    subst hg
    simp at hc
  | cons a rest ih =>
    intro g hg c hc
    by_cases ha : a = '\n'
    · subst ha
      rw [splitNl_cons_nl] at hg
      rcases List.mem_cons.mp hg with rfl | hg
      · simp at hc
      · exact List.mem_cons_of_mem _ (ih g hg c hc)
    · rw [splitNl_cons ha] at hg
      rcases List.mem_cons.mp hg with rfl | hg
      · rcases List.mem_cons.mp hc with rfl | hc
        · exact List.mem_cons_self _ _
        · exact List.mem_cons_of_mem _
            (ih _ (mem_headI (splitNl_ne_nil rest)) c hc)
      · exact List.mem_cons_of_mem _
          (ih g (List.mem_of_mem_tail hg) c hc)

theorem map_stripWs_id {L : List (List Char)}
    (h : ∀ g ∈ L, stripWs g = g) : L.map stripWs = L := by
  induction L with
  | nil => rfl
  | cons g gs ih =>
    rw [List.map_cons, h g (List.mem_cons_self g gs),
      ih fun g2 hg2 => h g2 (List.mem_cons_of_mem _ hg2)]

theorem stripLines_id {l : List Char}
    (h : ∀ g ∈ splitNl l, stripWs g = g) : stripLines l = l := by
  unfold stripLines
  rw [map_stripWs_id h, joinNl_splitNl]

/-! ### Lemmas: newline-run collapsing -/

theorem emitRun_zero : emitRun 0 = [] := rfl

theorem emitRun_small {n : Nat} (h : n ≤ 2) : emitRun n = List.replicate n '\n' := by
  unfold emitRun
  rw [if_neg (by omega)]

theorem emitRun_cases (n : Nat) :
    emitRun n = [] ∨ emitRun n = ['\n'] ∨ emitRun n = ['\n', '\n'] := by
  unfold emitRun
  split
  · right; right; rfl
  · rename_i h
    interval_cases n
    · left; rfl
    · right; left; rfl
    · right; right; rfl

theorem emitRun_eq_nil {n : Nat} (h : emitRun n = []) : n = 0 := by
  unfold emitRun at h
  split at h
  · simp at h
  · simpa using congrArg List.length h

theorem emitRun_mem {n : Nat} {ch : Char} (h : ch ∈ emitRun n) : ch = '\n' := by
  rcases emitRun_cases n with he | he | he <;> rw [he] at h <;> simp_all

theorem collapseGo_nil (n : Nat) : collapseGo n [] = emitRun n := rfl

theorem collapseGo_cons_nl (n : Nat) (rest : List Char) :
    collapseGo n ('\n' :: rest) = collapseGo (n + 1) rest := by
  simp [collapseGo]

theorem collapseGo_cons {c : Char} (hc : ¬c = '\n') (n : Nat) (rest : List Char) :
    collapseGo n (c :: rest) = emitRun n ++ c :: collapseGo 0 rest := by
  simp [collapseGo, hc]

theorem collapseGo_eq_nil : ∀ (l : List Char) (n : Nat),
    collapseGo n l = [] → n = 0 ∧ l = [] := by
  intro l
  induction l with
  | nil => exact fun n h => ⟨emitRun_eq_nil h, rfl⟩
  | cons c rest ih =>
    intro n h
    by_cases hc : c = '\n'
    · subst hc
      rw [collapseGo_cons_nl] at h
      exact absurd (ih (n + 1) h).1 (by omega)
    · rw [collapseGo_cons hc] at h
      simp at h

theorem collapseGo_pos_head : ∀ (l : List Char) (n : Nat), 1 ≤ n →
    ∃ t, collapseGo n l = '\n' :: t := by
  intro l
  induction l with
  | nil =>
    intro n hn
    rcases emitRun_cases n with he | he | he
    · exact absurd (emitRun_eq_nil he) (by omega)
    · exact ⟨[], he⟩
    · exact ⟨['\n'], he⟩
  | cons c rest ih =>
    intro n hn
    by_cases hc : c = '\n'
    · subst hc
      rw [collapseGo_cons_nl]
      exact ih (n + 1) (by omega)
    · rw [collapseGo_cons hc]
      rcases emitRun_cases n with he | he | he

      · exact absurd (emitRun_eq_nil he) (by omega)
      · rw [he]; exact ⟨c :: collapseGo 0 rest, rfl⟩
      · rw [he]; exact ⟨'\n' :: c :: collapseGo 0 rest, rfl⟩

theorem collapse_headI : ∀ l : List Char,
    (splitNl (collapseGo 0 l)).headI = (splitNl l).headI := by
  intro l
  induction l with
  | nil => rfl
  | cons c rest ih =>
    by_cases hc : c = '\n'
    · subst hc
      rw [collapseGo_cons_nl]
      obtain ⟨t, ht⟩ := collapseGo_pos_head rest 1 (le_refl 1)
      rw [ht, splitNl_cons_nl, splitNl_cons_nl]
      rfl
    · rw [collapseGo_cons hc, emitRun_zero, List.nil_append,
        splitNl_cons hc, splitNl_cons hc]
      show c :: (splitNl (collapseGo 0 rest)).headI = c :: (splitNl rest).headI
      rw [ih]

theorem noTriple_collapseGo : ∀ (l : List Char) (n : Nat),
    triplesOk pNl (collapseGo n l) = true := by
  intro l
  induction l with
  | nil =>
    intro n
    rcases emitRun_cases n with he | he | he <;>
      rw [collapseGo_nil, he] <;> rfl
  | cons c rest ih =>
    intro n
    by_cases hc : c = '\n'
    · subst hc
      rw [collapseGo_cons_nl]
      exact ih (n + 1)
    · rw [collapseGo_cons hc]
      rcases emitRun_cases n with he | he | he <;> rw [he]
      · rw [List.nil_append, triplesOk_cons]
        exact Bool.and_eq_true_iff.mpr ⟨tripHead_nonNl hc _, ih 0⟩
      · show triplesOk pNl ('\n' :: c :: collapseGo 0 rest) = true
        rw [triplesOk_cons]
        refine Bool.and_eq_true_iff.mpr ⟨tripHead_cons_nonNl _ hc _, ?_⟩
        rw [triplesOk_cons]
        exact Bool.and_eq_true_iff.mpr ⟨tripHead_nonNl hc _, ih 0⟩
      · show triplesOk pNl ('\n' :: '\n' :: c :: collapseGo 0 rest) = true
        rw [triplesOk_cons]
        refine Bool.and_eq_true_iff.mpr ⟨?_, ?_⟩
        · rw [tripHead_cons_cons]
          simp [pNl, hc]
        · rw [triplesOk_cons]
          refine Bool.and_eq_true_iff.mpr ⟨tripHead_cons_nonNl _ hc _, ?_⟩
          rw [triplesOk_cons]
          exact Bool.and_eq_true_iff.mpr ⟨tripHead_nonNl hc _, ih 0⟩

theorem collapse_mem_lines : ∀ l : List Char,
    (∀ g ∈ (splitNl (collapseGo 0 l)).tail, g = [] ∨ g ∈ (splitNl l).tail) ∧
    (∀ n, 1 ≤ n → ∀ g ∈ splitNl (collapseGo n l), g = [] ∨ g ∈ splitNl l) := by
  intro l
  induction l with
  | nil =>
    constructor
    · intro g hg
      simp [collapseGo_nil, emitRun_zero, splitNl_nil] at hg
    · intro n hn g hg
      rw [collapseGo_nil] at hg
      rcases emitRun_cases n with he | he | he <;> rw [he] at hg
      · rw [splitNl_nil] at hg
        simp at hg
        exact Or.inl hg
      · rw [splitNl_cons_nl, splitNl_nil] at hg
        simp at hg
        exact Or.inl hg
      · rw [splitNl_cons_nl, splitNl_cons_nl, splitNl_nil] at hg
        simp at hg
        exact Or.inl hg
  | cons c rest ih =>
    obtain ⟨ih0, ihn⟩ := ih
    by_cases hc : c = '\n'
    · subst hc
      constructor
      · intro g hg
        rw [collapseGo_cons_nl] at hg
        have hg2 : g ∈ splitNl (collapseGo 1 rest) := List.mem_of_mem_tail hg
        rcases ihn 1 (le_refl 1) g hg2 with h | h
        · exact Or.inl h
        · right
          rw [splitNl_cons_nl]
          exact h
      · intro n hn g hg
        rw [collapseGo_cons_nl] at hg
        rcases ihn (n + 1) (by omega) g hg with h | h
        · exact Or.inl h
        · right
          rw [splitNl_cons_nl]
          exact List.mem_cons_of_mem _ h
    · have sub : ∀ g ∈ splitNl (c :: collapseGo 0 rest),
          g = [] ∨ g ∈ splitNl (c :: rest) := by
        intro g hg
        rw [splitNl_cons hc] at hg
        rcases List.mem_cons.mp hg with rfl | hg2
        · right
          rw [collapse_headI rest, splitNl_cons hc]
          exact List.mem_cons_self _ _
        · rcases ih0 g hg2 with h | h
          · exact Or.inl h
          · right
            rw [splitNl_cons hc]
            exact List.mem_cons_of_mem _ h
      constructor
      · intro g hg
        rw [collapseGo_cons hc, emitRun_zero, List.nil_append,
          splitNl_cons hc] at hg
        rcases ih0 g hg with h | h
        · exact Or.inl h
        · right
          rw [splitNl_cons hc]
          exact h
      · intro n hn g hg
        rw [collapseGo_cons hc] at hg
        rcases emitRun_cases n with he | he | he <;> rw [he] at hg
        · rw [List.nil_append] at hg
          exact sub g hg
        · rw [show ['\n'] ++ c :: collapseGo 0 rest =
            '\n' :: c :: collapseGo 0 rest from rfl, splitNl_cons_nl] at hg
          rcases List.mem_cons.mp hg with rfl | hg2
          · exact Or.inl rfl
          · exact sub g hg2
        · rw [show ['\n', '\n'] ++ c :: collapseGo 0 rest =
            '\n' :: '\n' :: c :: collapseGo 0 rest from rfl,
            splitNl_cons_nl, splitNl_cons_nl] at hg
          rcases List.mem_cons.mp hg with rfl | hg2
          · exact Or.inl rfl
          · rcases List.mem_cons.mp hg2 with rfl | hg3
            · exact Or.inl rfl
            · exact sub g hg3

theorem collapseNl_lines (l : List Char) :
    ∀ g ∈ splitNl (collapseNl l), g = [] ∨ g ∈ splitNl l := by
  intro g hg
  rw [show collapseNl l = collapseGo 0 l from rfl,
    ← cons_headI_tail (splitNl_ne_nil (collapseGo 0 l))] at hg
  rcases List.mem_cons.mp hg with rfl | hg2
  · rw [collapse_headI l]
    exact Or.inr (mem_headI (splitNl_ne_nil l))
  · rcases (collapse_mem_lines l).1 g hg2 with h | h
    · exact Or.inl h
    · exact Or.inr (List.mem_of_mem_tail h)

theorem collapse_headNot {l : List Char} (h : headNot isPyWs l = true) :
    headNot isPyWs (collapseNl l) = true := by
  cases l with
  | nil => rfl
  | cons c rest =>
    have hcw : isPyWs c = false := by simpa [headNot] using h
    have hc : ¬c = '\n' := fun hq => by
      subst hq
      exact absurd hcw (by decide)
    show headNot isPyWs (collapseGo 0 (c :: rest)) = true
    rw [collapseGo_cons hc, emitRun_zero, List.nil_append]
    simpa [headNot] using hcw

theorem collapse_lastNot : ∀ l : List Char, ∀ n : Nat, l ≠ [] →
    lastNot isPyWs l = true → lastNot isPyWs (collapseGo n l) = true := by
  intro l
  induction l with
  | nil => exact fun n h => absurd rfl h
  | cons c rest ih =>
    intro n _ hlast
    by_cases hr : rest = []
    · subst hr
      have hcw : isPyWs c = false := by
        simpa [lastNot_singleton] using hlast
      have hc : ¬c = '\n' := fun hq => by
        subst hq
        exact absurd hcw (by decide)
      rw [collapseGo_cons hc, collapseGo_nil, emitRun_zero]
      rw [lastNot_append _ (by simp : (c :: ([] : List Char)) ≠ [])]
      simpa [lastNot_singleton] using hcw
    · by_cases hc : c = '\n'
      · subst hc
        rw [collapseGo_cons_nl]
        exact ih (n + 1) hr (by rw [← lastNot_cons '\n' hr]; exact hlast)
      · rw [collapseGo_cons hc]
        have hne : collapseGo 0 rest ≠ [] := fun hq => hr (collapseGo_eq_nil rest 0 hq).2
        rw [lastNot_append _ (by simp : (c :: collapseGo 0 rest) ≠ []),
          lastNot_cons c hne]
        exact ih 0 hr (by rw [← lastNot_cons c hr]; exact hlast)

theorem getLast?_cons_ne {a : Char} {l : List Char} (h : l ≠ []) :
    (a :: l).getLast? = l.getLast? := by
  cases l with
  | nil => exact absurd rfl h
  | cons b r => exact List.getLast?_cons_cons

theorem collapse_head? {l : List Char} (h : headNot isPyWs l = true) :
    (collapseNl l).head? = l.head? := by
  cases l with
  | nil => rfl
  | cons c rest =>
    have hcw : isPyWs c = false := by simpa [headNot] using h
    have hc : ¬c = '\n' := fun hq => by
      subst hq
      exact absurd hcw (by decide)
    show (collapseGo 0 (c :: rest)).head? = _
    rw [collapseGo_cons hc, emitRun_zero, List.nil_append]
    rfl

theorem getLast?_append_ne {x y : List Char} (hy : y ≠ []) :
    (x ++ y).getLast? = y.getLast? := by
  induction x with
  | nil => rfl
  | cons a x ih =>
    have hne : x ++ y ≠ [] := by
      intro hq
      rcases List.append_eq_nil.mp hq with ⟨_, h2⟩
      exact hy h2
    rw [List.cons_append, getLast?_cons_ne hne, ih]

theorem collapseGo_getLast? : ∀ l : List Char, ∀ n : Nat, l ≠ [] →
    lastNot isPyWs l = true → (collapseGo n l).getLast? = l.getLast? := by
  intro l
  induction l with
  | nil => exact fun n h => absurd rfl h
  | cons c rest ih =>
    intro n _ hlast
    by_cases hr : rest = []
    · subst hr
      have hcw : isPyWs c = false := by
        simpa [lastNot_singleton] using hlast
      have hc : ¬c = '\n' := fun hq => by
        subst hq
        exact absurd hcw (by decide)
      rw [collapseGo_cons hc, collapseGo_nil, emitRun_zero,
        getLast?_append_ne (List.cons_ne_nil _ _)]
    · by_cases hc : c = '\n'
      · subst hc
        rw [collapseGo_cons_nl,
          ih (n + 1) hr (by rw [← lastNot_cons '\n' hr]; exact hlast)]
        exact (getLast?_cons_ne hr).symm
      · rw [collapseGo_cons hc]
        have hne : collapseGo 0 rest ≠ [] :=
          fun hq => hr (collapseGo_eq_nil rest 0 hq).2
        rw [getLast?_append_ne (List.cons_ne_nil _ _), getLast?_cons_ne hne,
          ih 0 hr (by rw [← lastNot_cons c hr]; exact hlast)]
        exact (getLast?_cons_ne hr).symm

theorem collapse_getLast? {l : List Char} (hl : l ≠ [])
    (h : lastNot isPyWs l = true) : (collapseNl l).getLast? = l.getLast? :=
  collapseGo_getLast? l 0 hl h

theorem collapse_chars : ∀ (l : List Char) (n : Nat),
    ∀ ch ∈ collapseGo n l, ch = '\n' ∨ ch ∈ l := by
  intro l
  induction l with
  | nil =>
    intro n ch hch
    exact Or.inl (emitRun_mem hch)
  | cons c rest ih =>
    intro n ch hch
    by_cases hc : c = '\n'
    · subst hc
      rw [collapseGo_cons_nl] at hch
      rcases ih (n + 1) ch hch with h | h
      · exact Or.inl h
      · exact Or.inr (List.mem_cons_of_mem _ h)
    · rw [collapseGo_cons hc] at hch
      rcases List.mem_append.mp hch with h | h
      · exact Or.inl (emitRun_mem h)
      · rcases List.mem_cons.mp h with rfl | h2
        · exact Or.inr (List.mem_cons_self _ _)
        · rcases ih 0 ch h2 with h3 | h3
          · exact Or.inl h3
          · exact Or.inr (List.mem_cons_of_mem _ h3)

theorem collapseGo_id : ∀ (l : List Char) (n : Nat), n ≤ 2 →
    triplesOk pNl (List.replicate n '\n' ++ l) = true →
    collapseGo n l = List.replicate n '\n' ++ l := by
  intro l
  induction l with
  | nil =>
    intro n hn _
    rw [collapseGo_nil, emitRun_small hn, List.append_nil]
  | cons c rest ih =>
    intro n hn htrip
    by_cases hc : c = '\n'
    · subst hc
      have hrep : List.replicate n '\n' ++ '\n' :: rest =
          List.replicate (n + 1) '\n' ++ rest := by
        rw [List.replicate_succ']
        simp
      have hn1 : n + 1 ≤ 2 := by
        by_contra hgt
        have hn2 : n = 2 := by omega
        subst hn2
        simp [List.replicate, triplesOk, pNl] at htrip
      rw [collapseGo_cons_nl, ih (n + 1) hn1 (by rw [← hrep]; exact htrip), hrep]
    · rw [collapseGo_cons hc, emitRun_small hn]
      have hrest : collapseGo 0 rest = rest := by
        apply ih 0 (by omega)
        simpa using triplesOk_tail (triplesOk_append_right _ htrip)
      rw [hrest]

theorem collapseNl_id {l : List Char} (h : noTriple l = true) :
    collapseNl l = l := by
  have := collapseGo_id l 0 (by omega) (by simpa using h)
  simpa using this

/-! ### Lemmas: punctuation-spacing rewrites -/

section FixLemmas

variable (t : Char) (φ : Char → Bool)

theorem fixAfter_nil : fixAfter t φ [] = [] := rfl

theorem fixAfter_one (a : Char) : fixAfter t φ [a] = [a] := rfl

theorem fixAfter_two_pos {a c : Char} (rest : List Char)
    (h : (decide (a = t) && φ c) = true) :
    fixAfter t φ (a :: c :: rest) = a :: ' ' :: c :: fixAfter t φ rest := by
  simp [fixAfter, h]

theorem fixAfter_two_neg {a c : Char} (rest : List Char)
    (h : ¬(decide (a = t) && φ c) = true) :
    fixAfter t φ (a :: c :: rest) = a :: fixAfter t φ (c :: rest) := by
  simp [fixAfter, h]

theorem fixAfter_eq_nil : ∀ l : List Char, fixAfter t φ l = [] → l = [] := by
  intro l h
  cases l with
  | nil => rfl
  | cons a rest =>
    cases rest with
    | nil => simp [fixAfter] at h
    | cons c r =>
      by_cases hc : (decide (a = t) && φ c) = true
      · rw [fixAfter_two_pos t φ r hc] at h
        simp at h
      · rw [fixAfter_two_neg t φ r hc] at h
        simp at h

theorem fixAfter_head? : ∀ l : List Char, (fixAfter t φ l).head? = l.head? := by
  intro l
  induction l using fixAfter.induct t φ with
  | case1 => rfl
  | case2 a => rfl
  | case3 a c rest h ih => simp [fixAfter, h]
  | case4 a c rest h ih => simp [fixAfter, h]

theorem fixAfter_cons_shape (c : Char) (r : List Char) :
    ∃ u, fixAfter t φ (c :: r) = c :: u := by
  have h1 := fixAfter_head? t φ (c :: r)
  cases hF : fixAfter t φ (c :: r) with
  | nil => rw [hF] at h1; simp at h1
  | cons x u =>
    rw [hF] at h1
    simp at h1
    exact ⟨u, by rw [h1]⟩

theorem fixAfter_getLast? : ∀ l : List Char,
    (fixAfter t φ l).getLast? = l.getLast? := by
  intro l
  induction l using fixAfter.induct t φ with
  | case1 => rfl
  | case2 a => rfl
  | case3 a c rest h ih =>
    rw [fixAfter_two_pos t φ rest h]
    by_cases hr : rest = []
    · subst hr
      rfl
    · have hne : fixAfter t φ rest ≠ [] := fun hq => hr (fixAfter_eq_nil t φ _ hq)
      have h1 : (a :: ' ' :: c :: fixAfter t φ rest).getLast? =
          (fixAfter t φ rest).getLast? := by
        rw [getLast?_cons_ne (List.cons_ne_nil _ _),
          getLast?_cons_ne (List.cons_ne_nil _ _), getLast?_cons_ne hne]
      have h2 : (a :: c :: rest).getLast? = rest.getLast? := by
        rw [getLast?_cons_ne (List.cons_ne_nil _ _), getLast?_cons_ne hr]
      rw [h1, ih, h2]
  | case4 a c rest h ih =>
    rw [fixAfter_two_neg t φ rest h]
    have hne : fixAfter t φ (c :: rest) ≠ [] :=
      fun hq => by simpa using fixAfter_eq_nil t φ _ hq
    rw [getLast?_cons_ne hne, ih]
    exact (getLast?_cons_ne (List.cons_ne_nil _ _)).symm

theorem fixAfter_chars : ∀ l : List Char, ∀ ch ∈ fixAfter t φ l,
    ch = ' ' ∨ ch ∈ l := by
  intro l
  induction l using fixAfter.induct t φ with
  | case1 =>
    intro ch hch
    rw [fixAfter_nil] at hch
    simp at hch
  | case2 a =>
    intro ch hch
    rw [fixAfter_one] at hch
    simp at hch
    exact Or.inr (by simp [hch])
  | case3 a c rest h ih =>
    intro ch hch
    rw [fixAfter_two_pos t φ rest h] at hch
    rcases List.mem_cons.mp hch with rfl | hch
    · exact Or.inr (List.mem_cons_self _ _)
    rcases List.mem_cons.mp hch with rfl | hch
    · exact Or.inl rfl
    rcases List.mem_cons.mp hch with rfl | hch
    · exact Or.inr (List.mem_cons_of_mem _ (List.mem_cons_self _ _))
    · rcases ih ch hch with h2 | h2
      · exact Or.inl h2
      · exact Or.inr (List.mem_cons_of_mem _ (List.mem_cons_of_mem _ h2))
  | case4 a c rest h ih =>
    intro ch hch
    rw [fixAfter_two_neg t φ rest h] at hch
    rcases List.mem_cons.mp hch with rfl | hch
    · exact Or.inr (List.mem_cons_self _ _)
    · rcases ih ch hch with h2 | h2
      · exact Or.inl h2
      · exact Or.inr (List.mem_cons_of_mem _ h2)

theorem fixAfter_id : ∀ l : List Char, pairsOk (pFix t φ) l = true →
    fixAfter t φ l = l := by
  intro l
  induction l using fixAfter.induct t φ with
  | case1 => intro _; rfl
  | case2 a => intro _; rfl
  | case3 a c rest h ih =>
    intro hp
    exfalso
    rw [pairsOk_cons] at hp
    have h1 : pairHead (pFix t φ) a (c :: rest) = true :=
      (Bool.and_eq_true_iff.mp hp).1
    simp only [pairHead, pFix] at h1
    rw [h] at h1
    simp at h1
  | case4 a c rest h ih =>
    intro hp
    rw [fixAfter_two_neg t φ rest h, ih (pairsOk_tail hp)]

theorem fixAfter_noMatch (hsp : φ ' ' = false) (hts : ¬t = ' ')
    (hφt : φ t = false) : ∀ l : List Char,
    pairsOk (pFix t φ) (fixAfter t φ l) = true := by
  intro l
  induction l using fixAfter.induct t φ with
  | case1 => rfl
  | case2 a => rfl
  | case3 a c rest h ih =>
    obtain ⟨hat, hφc⟩ := Bool.and_eq_true_iff.mp h
    have hat2 : a = t := of_decide_eq_true hat
    have hct : ¬c = t := fun hq => by rw [hq, hφt] at hφc; exact Bool.false_ne_true hφc
    have hst : ¬(' ' : Char) = t := fun hq => hts hq.symm
    rw [fixAfter_two_pos t φ rest h]
    rw [pairsOk_cons]
    refine Bool.and_eq_true_iff.mpr ⟨by simp [pairHead, pFix, hsp], ?_⟩
    rw [pairsOk_cons]
    refine Bool.and_eq_true_iff.mpr ⟨by simp [pairHead, pFix, hst], ?_⟩
    rw [pairsOk_cons]
    refine Bool.and_eq_true_iff.mpr ⟨pairHead_of_all (fun b => by simp [pFix, hct]) _, ih⟩
  | case4 a c rest h ih =>
    rw [fixAfter_two_neg t φ rest h]
    rw [pairsOk_cons]
    refine Bool.and_eq_true_iff.mpr ⟨?_, ih⟩
    rw [pairHead_congr _ a (fixAfter_head? t φ (c :: rest))]
    show pFix t φ a c = true
    unfold pFix
    rw [show (decide (a = t) && φ c) = false from Bool.eq_false_iff.mpr h]
    rfl

theorem fixAfter_pairs_pres (p : Char → Char → Bool) (hpt : p t ' ' = true)
    (hps : ∀ c, φ c = true → p ' ' c = true) : ∀ l : List Char,
    pairsOk p l = true → pairsOk p (fixAfter t φ l) = true := by
  intro l
  induction l using fixAfter.induct t φ with
  | case1 => intro _; rfl
  | case2 a => intro _; rfl
  | case3 a c rest h ih =>
    intro hp
    obtain ⟨hat, hφc⟩ := Bool.and_eq_true_iff.mp h
    have hat2 : a = t := of_decide_eq_true hat
    have hp2 : pairsOk p (c :: rest) = true := pairsOk_tail hp
    rw [pairsOk_cons] at hp2
    obtain ⟨hpc, hpr⟩ := Bool.and_eq_true_iff.mp hp2
    rw [fixAfter_two_pos t φ rest h]
    rw [pairsOk_cons]
    refine Bool.and_eq_true_iff.mpr ⟨by simp [pairHead, hat2, hpt], ?_⟩
    rw [pairsOk_cons]
    refine Bool.and_eq_true_iff.mpr ⟨by simp [pairHead, hps c hφc], ?_⟩
    rw [pairsOk_cons]
    refine Bool.and_eq_true_iff.mpr ⟨?_, ih hpr⟩
    rw [pairHead_congr _ c (fixAfter_head? t φ rest)]
    exact hpc
  | case4 a c rest h ih =>
    intro hp
    rw [fixAfter_two_neg t φ rest h]
    rw [pairsOk_cons]
    refine Bool.and_eq_true_iff.mpr ⟨?_, ih (pairsOk_tail hp)⟩
    rw [pairHead_congr _ a (fixAfter_head? t φ (c :: rest))]
    rw [pairsOk_cons] at hp
    exact (Bool.and_eq_true_iff.mp hp).1

theorem fixAfter_noTriple (htn : ¬t = '\n') (hφn : φ '\n' = false) :
    ∀ l : List Char, triplesOk pNl l = true →
    triplesOk pNl (fixAfter t φ l) = true := by
  intro l
  induction l using fixAfter.induct t φ with
  | case1 => intro _; rfl
  | case2 a => intro _; rfl
  | case3 a c rest h ih =>
    intro hp
    obtain ⟨hat, hφc⟩ := Bool.and_eq_true_iff.mp h
    have hat2 : a = t := of_decide_eq_true hat
    have hcn : ¬c = '\n' := fun hq => by rw [hq, hφn] at hφc; exact Bool.false_ne_true hφc
    rw [fixAfter_two_pos t φ rest h]
    rw [triplesOk_cons]
    refine Bool.and_eq_true_iff.mpr ⟨tripHead_nonNl (by rw [hat2]; exact htn) _, ?_⟩
    rw [triplesOk_cons]
    refine Bool.and_eq_true_iff.mpr ⟨tripHead_nonNl (by decide) _, ?_⟩
    rw [triplesOk_cons]
    refine Bool.and_eq_true_iff.mpr ⟨tripHead_nonNl hcn _,
      ih (triplesOk_tail (triplesOk_tail hp))⟩
  | case4 a c rest h ih =>
    intro hp
    rw [fixAfter_two_neg t φ rest h]
    rw [triplesOk_cons]
    refine Bool.and_eq_true_iff.mpr ⟨?_, ih (triplesOk_tail hp)⟩
    by_cases ha : a = '\n'
    · subst ha
      by_cases hcn : c = '\n'
      · subst hcn
        cases rest with
        | nil => rfl
        | cons r1 r2 =>
          have hnt : ¬('\n' : Char) = t := fun hq => htn hq.symm
          have hc2 : ¬(decide (('\n' : Char) = t) && φ r1) = true := by
            simp [hnt]
          rw [fixAfter_two_neg t φ r2 hc2]
          obtain ⟨u, hu⟩ := fixAfter_cons_shape t φ r1 r2
          rw [hu, tripHead_cons_cons]
          have : triplesOk pNl ('\n' :: '\n' :: r1 :: r2) = true := hp
          rw [triplesOk_cons] at this
          have h3 : tripHead pNl '\n' ('\n' :: r1 :: r2) = true :=
            (Bool.and_eq_true_iff.mp this).1
          rw [tripHead_cons_cons] at h3
          exact h3
      · obtain ⟨u, hu⟩ := fixAfter_cons_shape t φ c rest
        rw [hu]
        exact tripHead_cons_nonNl _ hcn _
    · exact tripHead_nonNl ha _

theorem headI_map_fix (L : List (List Char)) :
    (L.map (fixAfter t φ)).headI = fixAfter t φ L.headI := by
  cases L with
  | nil => rfl
  | cons g gs => rfl

theorem tail_map_fix (L : List (List Char)) :
    (L.map (fixAfter t φ)).tail = L.tail.map (fixAfter t φ) := by
  cases L <;> rfl

theorem fixAfter_splitNl (htn : ¬t = '\n') (hφn : φ '\n' = false) :
    ∀ l : List Char,
    splitNl (fixAfter t φ l) = (splitNl l).map (fixAfter t φ) := by
  intro l
  induction l using fixAfter.induct t φ with
  | case1 => rfl
  | case2 a =>
    by_cases ha : a = '\n'
    · subst ha
      rw [fixAfter_one, splitNl_cons_nl, splitNl_nil]
      rfl
    · rw [fixAfter_one, splitNl_cons ha, splitNl_nil]
      rfl
  | case3 a c rest h ih =>
    obtain ⟨hat, hφc⟩ := Bool.and_eq_true_iff.mp h
    have hat2 : a = t := of_decide_eq_true hat
    have han : ¬a = '\n' := by rw [hat2]; exact htn
    have hcn : ¬c = '\n' := fun hq => by rw [hq, hφn] at hφc; exact Bool.false_ne_true hφc
    have hspn : ¬(' ' : Char) = '\n' := by decide
    have hpos : ∀ r : List Char,
        fixAfter t φ (a :: c :: r) = a :: ' ' :: c :: fixAfter t φ r :=
      fun r => fixAfter_two_pos t φ r h
    simp only [hpos, splitNl_cons han, splitNl_cons hspn, splitNl_cons hcn, ih,
      List.headI_cons, List.tail_cons, List.map_cons, headI_map_fix, tail_map_fix]
  | case4 a c rest h ih =>
    have hneg : ∀ r : List Char,
        fixAfter t φ (a :: c :: r) = a :: fixAfter t φ (c :: r) :=
      fun r => fixAfter_two_neg t φ r h
    by_cases ha : a = '\n'
    · subst ha
      rw [hneg rest, splitNl_cons_nl, ih, splitNl_cons_nl, List.map_cons]
      rfl
    · by_cases hcn : c = '\n'
      · subst hcn
        rw [hneg rest, splitNl_cons ha, ih]
        rw [splitNl_cons ha, List.map_cons, headI_map_fix, tail_map_fix]
        rw [splitNl_cons_nl]
        simp only [List.headI_cons, List.tail_cons]
        rfl
      · rw [hneg rest, splitNl_cons ha, ih]
        rw [splitNl_cons ha, List.map_cons, headI_map_fix, tail_map_fix]
        rw [splitNl_cons hcn]
        simp only [List.headI_cons, List.tail_cons]
        rw [hneg ((splitNl rest).headI)]

end FixLemmas

/-! ### Assembly: the cleanup pipeline on normalized input -/

theorem cleanChars_step {l : List Char}
    (h1 : headNot isPyWs l = true) (h2 : lastNot isPyWs l = true)
    (h3 : ∀ g ∈ splitNl l, headNot isPyWs g = true ∧ lastNot isPyWs g = true)
    (h4 : headNot isCosmetic l = true) (h5 : lastNot isCosmetic l = true) :
    cleanChars l = commaFix (periodFix (collapseNl l)) := by
  by_cases hl : l = []
  · subst hl
    rfl
  · unfold cleanChars
    rw [if_neg hl, stripWs_id h1 h2]
    have hlines : stripLines (collapseNl l) = collapseNl l := by
      apply stripLines_id
      intro g hg
      rcases collapseNl_lines l g hg with rfl | hmem
      · rfl
      · exact stripWs_id (h3 g hmem).1 (h3 g hmem).2
    rw [hlines]
    have hh : (commaFix (periodFix (collapseNl l))).head? = l.head? := by
      rw [show commaFix (periodFix (collapseNl l)) =
          fixAfter ',' isLetterAscii (periodFix (collapseNl l)) from rfl,
        fixAfter_head?,
        show periodFix (collapseNl l) =
          fixAfter '.' isUpperAscii (collapseNl l) from rfl,
        fixAfter_head?, collapse_head? h1]
    have hgl : (commaFix (periodFix (collapseNl l))).getLast? = l.getLast? := by
      rw [show commaFix (periodFix (collapseNl l)) =
          fixAfter ',' isLetterAscii (periodFix (collapseNl l)) from rfl,
        fixAfter_getLast?,
        show periodFix (collapseNl l) =
          fixAfter '.' isUpperAscii (collapseNl l) from rfl,
        fixAfter_getLast?, collapse_getLast? hl h2]
    exact stripEnds_id (by rw [headNot_congr isCosmetic hh]; exact h4)
      (by rw [lastNot_congr isCosmetic hgl]; exact h5)

theorem cleanChars_fix {r : List Char}
    (e1 : headNot isPyWs r = true) (e2 : lastNot isPyWs r = true)
    (e3 : ∀ g ∈ splitNl r, stripWs g = g)
    (e4 : noTriple r = true)
    (e5 : pairsOk (pFix '.' isUpperAscii) r = true)
    (e6 : pairsOk (pFix ',' isLetterAscii) r = true)
    (e7 : headNot isCosmetic r = true) (e8 : lastNot isCosmetic r = true) :
    cleanChars r = r := by
  by_cases hr : r = []
  · subst hr
    rfl
  · unfold cleanChars
    rw [if_neg hr, stripWs_id e1 e2,
      show collapseNl r = r from collapseNl_id e4, stripLines_id e3,
      show periodFix r = r from fixAfter_id '.' isUpperAscii r e5,
      show commaFix r = r from fixAfter_id ',' isLetterAscii r e6]
    exact stripEnds_id e7 e8

theorem clean_idem_chars {l : List Char}
    (h1 : headNot isPyWs l = true) (h2 : lastNot isPyWs l = true)
    (h3 : ∀ g ∈ splitNl l, headNot isPyWs g = true ∧ lastNot isPyWs g = true)
    (h4 : headNot isCosmetic l = true) (h5 : lastNot isCosmetic l = true) :
    cleanChars (cleanChars l) = cleanChars l := by
  by_cases hl : l = []
  · subst hl
    rfl
  · have hstep : cleanChars l = commaFix (periodFix (collapseNl l)) :=
      cleanChars_step h1 h2 h3 h4 h5
    rw [hstep]
    have hyhead : headNot isPyWs (collapseNl l) = true := collapse_headNot h1
    have hylast : lastNot isPyWs (collapseNl l) = true := collapse_lastNot l 0 hl h2
    have hylines : ∀ g ∈ splitNl (collapseNl l),
        headNot isPyWs g = true ∧ lastNot isPyWs g = true := by
      intro g hg
      rcases collapseNl_lines l g hg with rfl | hmem
      · exact ⟨rfl, rfl⟩
      · exact h3 g hmem
    have hrhead : (commaFix (periodFix (collapseNl l))).head? = (collapseNl l).head? := by
      rw [show commaFix (periodFix (collapseNl l)) =
          fixAfter ',' isLetterAscii (periodFix (collapseNl l)) from rfl,
        fixAfter_head?, show periodFix (collapseNl l) =
          fixAfter '.' isUpperAscii (collapseNl l) from rfl, fixAfter_head?]
    have hrlast : (commaFix (periodFix (collapseNl l))).getLast? =
        (collapseNl l).getLast? := by
      rw [show commaFix (periodFix (collapseNl l)) =
          fixAfter ',' isLetterAscii (periodFix (collapseNl l)) from rfl,
        fixAfter_getLast?, show periodFix (collapseNl l) =
          fixAfter '.' isUpperAscii (collapseNl l) from rfl, fixAfter_getLast?]
    apply cleanChars_fix
    · rw [headNot_congr isPyWs hrhead]
      exact hyhead
    · rw [lastNot_congr isPyWs hrlast]
      exact hylast
    · -- every line of the result is stripped
      intro g hg
      rw [show commaFix (periodFix (collapseNl l)) =
          fixAfter ',' isLetterAscii (periodFix (collapseNl l)) from rfl,
        fixAfter_splitNl ',' isLetterAscii (by decide) (by decide),
        show periodFix (collapseNl l) =
          fixAfter '.' isUpperAscii (collapseNl l) from rfl,
        fixAfter_splitNl '.' isUpperAscii (by decide) (by decide)] at hg
      obtain ⟨g1, hg1, rfl⟩ := List.mem_map.mp hg
      obtain ⟨g0, hg0, rfl⟩ := List.mem_map.mp hg1
      have hh : (fixAfter ',' isLetterAscii (fixAfter '.' isUpperAscii g0)).head? =
          g0.head? := by rw [fixAfter_head?, fixAfter_head?]
      have hl2 : (fixAfter ',' isLetterAscii (fixAfter '.' isUpperAscii g0)).getLast? =
          g0.getLast? := by rw [fixAfter_getLast?, fixAfter_getLast?]
      obtain ⟨hg0h, hg0l⟩ := hylines g0 hg0
      exact stripWs_id (by rw [headNot_congr isPyWs hh]; exact hg0h)
        (by rw [lastNot_congr isPyWs hl2]; exact hg0l)
    · -- no triple newline in the result
      have t0 : triplesOk pNl (collapseNl l) = true := noTriple_collapseGo l 0
      have t1 : triplesOk pNl (periodFix (collapseNl l)) = true :=
        fixAfter_noTriple '.' isUpperAscii (by decide) (by decide) _ t0
      exact fixAfter_noTriple ',' isLetterAscii (by decide) (by decide) _ t1
    · -- no period-uppercase adjacency left
      have m1 : pairsOk (pFix '.' isUpperAscii) (periodFix (collapseNl l)) = true :=
        fixAfter_noMatch '.' isUpperAscii (by decide) (by decide) (by decide) _
      have hd0 : decide ((' ' : Char) = '.') = false := by decide
      exact fixAfter_pairs_pres ',' isLetterAscii (pFix '.' isUpperAscii)
        (by decide) (fun c _ => by simp [pFix, hd0]) _ m1
    · -- no comma-letter adjacency left
      exact fixAfter_noMatch ',' isLetterAscii (by decide) (by decide) (by decide) _
    · -- the result does not begin with a cosmetic character
      rw [headNot_congr isCosmetic hrhead,
        headNot_congr isCosmetic (collapse_head? h1)]
      exact h4
    · -- the result does not end with a cosmetic character
      rw [lastNot_congr isCosmetic hrlast,
        lastNot_congr isCosmetic (collapse_getLast? hl h2)]
      exact h5

/-! ### Claim theorems for the cleanup pipeline -/

/-- C2 (counterexamples): `clean` is not idempotent on arbitrary strings.
Per-line stripping can produce a new run of three newlines that only the
next pass collapses, and the final `strip("*-_")` can expose edge whitespace
that only the next pass trims. -/
theorem clean_not_idempotent :
    clean (clean "a\n \n \nb") ≠ clean "a\n \n \nb" ∧
    clean (clean "* a") ≠ clean "* a" :=
  ⟨by decide, by decide⟩

/-- C2 (amended): `clean` is idempotent on whitespace-normalized input: any
string with no leading or trailing whitespace (Python's full `str.strip()`
whitespace set), whose every line has no leading or trailing whitespace,
and which neither begins nor ends with one of the markdown characters
`*`, `-`, `_`. -/
theorem clean_idempotent_normalized (s : String)
    (h1 : headNot isPyWs s.data = true) (h2 : lastNot isPyWs s.data = true)
    (h3 : ∀ g ∈ splitNl s.data, headNot isPyWs g = true ∧ lastNot isPyWs g = true)
    (h4 : headNot isCosmetic s.data = true)
    (h5 : lastNot isCosmetic s.data = true) :
    clean (clean s) = clean s := by
  show String.mk (cleanChars (String.mk (cleanChars s.data)).data) =
    String.mk (cleanChars s.data)
  exact congrArg String.mk (clean_idem_chars h1 h2 h3 h4 h5)

theorem clean_idempotent_normalized_witness :
    headNot isPyWs ("ab.Cd\n\nx,y*z" : String).data = true ∧
    clean (clean "ab.Cd\n\nx,y*z") = clean "ab.Cd\n\nx,y*z" :=
  ⟨by decide, clean_idempotent_normalized "ab.Cd\n\nx,y*z" (by decide) (by decide)
    (by decide) (by decide) (by decide)⟩

/-- C4 (counterexample): a lowercase letter directly after a period is left
unchanged by `clean` — the period rule only fires before `[A-Z]` — so the
claimed insertion for arbitrary letters fails. -/
theorem clean_period_lowercase_cex :
    clean "one.next" = "one.next" ∧ ("one.next" : String) ≠ "one. next" :=
  ⟨by decide, by decide⟩

/-- C4 (amended): step 4 inserts a space after a period only when an
uppercase ASCII letter follows, and after a comma when any ASCII letter
follows; the spec's example holds, and afterwards no period-uppercase or
comma-letter adjacency remains. -/
theorem clean_punctuation_spacing :
    clean "Sentence one.Next sentence" = "Sentence one. Next sentence" ∧
    clean "a,b" = "a, b" ∧ clean "a,B" = "a, B" ∧
    clean "a.b" = "a.b" ∧
    (∀ l : List Char, pairsOk (pFix '.' isUpperAscii) (periodFix l) = true) ∧
    (∀ l : List Char, pairsOk (pFix ',' isLetterAscii) (commaFix l) = true) := by
  refine ⟨by decide, by decide, by decide, by decide, ?_, ?_⟩
  · exact fun l => fixAfter_noMatch '.' isUpperAscii (by decide) (by decide)
      (by decide) l
  · exact fun l => fixAfter_noMatch ',' isLetterAscii (by decide) (by decide)
      (by decide) l

/-- C9: `clean` is a total function; on empty or whitespace-only input it
returns the empty string. -/
theorem clean_whitespace_total :
    (∀ s : String, (∀ c ∈ s.data, isPyWs c = true) → clean s = "") ∧
    clean "" = "" ∧ clean "   " = "" := by
  refine ⟨?_, by decide, by decide⟩
  intro s h
  show String.mk (cleanChars s.data) = ""
  by_cases hs : s.data = []
  · rw [hs]
    rfl
  · unfold cleanChars
    rw [if_neg hs, stripWs_all_ws h]
    rfl

theorem clean_whitespace_total_witness :
    (∀ c ∈ ("   " : String).data, isPyWs c = true) ∧ clean "   " = "" :=
  ⟨by decide, clean_whitespace_total.1 "   " (by decide)⟩

end AiWeb
